import Mathlib

/-!
Verification of the two numeric pipelines of this repository:
the pedigree joint-probability engine (`heredity.py`) and the
PageRank estimators (`pagerank.py`).

Probabilities are embedded as exact rationals (`ℚ`); Python `dict`s keyed
by names become association lists or functions, Python `set`s become
duplicate-free lists (person and page names are numbered).
-/

namespace Heredity

/-- `PROBS["gene"]`: unconditional prior over gene-copy counts. -/
def PROBS_gene : ℕ → ℚ
  | 2 => 1/100
  | 1 => 3/100
  | _ => 96/100

/-- `PROBS["trait"]`: probability of the trait value given the gene count. -/
def PROBS_trait : ℕ → Bool → ℚ
  | 2, true => 65/100
  | 2, false => 35/100
  | 1, true => 56/100
  | 1, false => 44/100
  | _, true => 1/100
  | _, false => 99/100

/-- `PROBS["mutation"]`: the mutation probability. -/
def PROBS_mutation : ℚ := 1/100

/-- One row of the `people` dictionary: `mother`/`father` are `None` or a
name, `trait` is `None` or a boolean (`load_data`). -/
structure PersonData where
  mother : Option ℕ
  father : Option ℕ
  trait : Option Bool
deriving DecidableEq

/-- A pedigree: the `people` dict as an association list from name to data. -/
abbrev People := List (ℕ × PersonData)

/-- The gene count the hypothesis assigns to a person:
`2 if person in two_genes else 1 if person in one_gene else 0`. -/
def geneCount (one_gene two_genes : List ℕ) (person : ℕ) : ℕ :=
  if person ∈ two_genes then 2 else if person ∈ one_gene then 1 else 0

/-- The probability that a parent passes a copy of the gene, as computed
inline for `pass_mother` / `pass_father` in `joint_probability`.  A `none`
parent reference behaves like Python `None in one_gene` / `None in two_genes`:
both memberships are false, so the mutation rate results. -/
def passProb (one_gene two_genes : List ℕ) : Option ℕ → ℚ
  | some parent =>
      if parent ∈ two_genes then 1 - PROBS_mutation
      else if parent ∈ one_gene then 1/2
      else PROBS_mutation
  | none => PROBS_mutation

/-- The `person_prob` factor computed by one pass of the loop body of
`joint_probability`, translated clause by clause from the source: gene count
from set membership, the prior when `mother is None`, otherwise the two
parents' passing probabilities, times the trait factor. -/
def personFactor (one_gene two_genes have_trait : List ℕ)
    (q : ℕ × PersonData) : ℚ :=
  let genes := geneCount one_gene two_genes q.1
  let trait : Bool := decide (q.1 ∈ have_trait)
  let gene_prob := PROBS_gene genes
  let trait_prob := PROBS_trait genes trait
  let person_prob : ℚ :=
    match q.2.mother with
    | none => gene_prob
    | some m =>
        let pass_mother := passProb one_gene two_genes (some m)
        let pass_father := passProb one_gene two_genes q.2.father
        if genes = 2 then pass_mother * pass_father
        else if genes = 1 then
          pass_mother * (1 - pass_father) + (1 - pass_mother) * pass_father
        else (1 - pass_mother) * (1 - pass_father)
  person_prob * trait_prob

/-- `joint_probability(people, one_gene, two_genes, have_trait)`: the running
product `joint_prob` over all persons of the per-person factor. -/
def joint_probability (people : People)
    (one_gene two_genes have_trait : List ℕ) : ℚ :=
  (people.map (personFactor one_gene two_genes have_trait)).prod

/-- The claim's wording of a parent's passing probability: `1 - 0.01` if the
parent is in `two_genes`, `0.5` if in `one_gene`, `0.01` otherwise. -/
def passProbSpec (one_gene two_genes : List ℕ) : Option ℕ → ℚ
  | some parent =>
      if parent ∈ two_genes then 1 - 1/100
      else if parent ∈ one_gene then 1/2
      else 1/100
  | none => 1/100

/-- The claim's per-person contribution
`P(gene count | parents) * P(trait | gene count)`, written from the claim's
words: the prior `{0: 0.96, 1: 0.03, 2: 0.01}` for a person with no recorded
parents, the `pm`/`pf` combination formulas for a person with parents, and
the fixed penetrance table for the trait factor. -/
def personFactorSpec (one_gene two_genes have_trait : List ℕ)
    (q : ℕ × PersonData) : ℚ :=
  let genes := geneCount one_gene two_genes q.1
  let trait : Bool := decide (q.1 ∈ have_trait)
  let geneGivenParents : ℚ :=
    if q.2.mother = none ∧ q.2.father = none then
      if genes = 2 then 1/100 else if genes = 1 then 3/100 else 96/100
    else
      let pm := passProbSpec one_gene two_genes q.2.mother
      let pf := passProbSpec one_gene two_genes q.2.father
      if genes = 2 then pm * pf
      else if genes = 1 then pm * (1 - pf) + (1 - pm) * pf
      else (1 - pm) * (1 - pf)
  let traitGivenGenes : ℚ :=
    if genes = 2 then (if trait then 65/100 else 35/100)
    else if genes = 1 then (if trait then 56/100 else 44/100)
    else (if trait then 1/100 else 99/100)
  geneGivenParents * traitGivenGenes

/-- The claim's formula for the whole joint probability: the product over all
persons of the claim's per-person contribution. -/
def jointProbabilitySpec (people : People)
    (one_gene two_genes have_trait : List ℕ) : ℚ :=
  (people.map (personFactorSpec one_gene two_genes have_trait)).prod

lemma passProb_eq_spec (one_gene two_genes : List ℕ) (o : Option ℕ) :
    passProb one_gene two_genes o = passProbSpec one_gene two_genes o := by
  rcases o with _ | x <;> simp [passProb, passProbSpec, PROBS_mutation]

lemma trait_table_eq (genes : ℕ) (trait : Bool) :
    PROBS_trait genes trait =
      if genes = 2 then (if trait then 65/100 else 35/100)
      else if genes = 1 then (if trait then 56/100 else 44/100)
      else (if trait then 1/100 else 99/100) := by
  match genes, trait with
  | 2, true => rfl
  | 2, false => rfl
  | 1, true => rfl
  | 1, false => rfl
  | 0, true => rfl
  | 0, false => rfl
  | (n+3), true => rfl
  | (n+3), false => rfl

lemma gene_table_eq (genes : ℕ) :
    PROBS_gene genes =
      if genes = 2 then 1/100 else if genes = 1 then 3/100 else 96/100 := by
  match genes with
  | 0 => rfl
  | 1 => rfl
  | 2 => rfl
  | (n+3) => rfl

lemma personFactor_eq_spec (one_gene two_genes have_trait : List ℕ)
    (q : ℕ × PersonData) (hq : q.2.mother = none ↔ q.2.father = none) :
    personFactor one_gene two_genes have_trait q =
      personFactorSpec one_gene two_genes have_trait q := by
  unfold personFactor personFactorSpec
  rcases hm : q.2.mother with _ | m
  · have hf : q.2.father = none := hq.mp hm
    rw [hf]
    simp [trait_table_eq, gene_table_eq]
  · simp [trait_table_eq, passProb_eq_spec]

/-- C1: on every pedigree satisfying the data-model invariant (mother and
father both recorded or both absent), `joint_probability` computes exactly
the claim's product formula: over all persons,
`P(gene count | parents) * P(trait | gene count)` with the fixed prior,
passing-probability and penetrance tables. -/
theorem joint_probability_eq_spec (people : People)
    (one_gene two_genes have_trait : List ℕ)
    (hinv : ∀ q ∈ people, (q.2.mother = none ↔ q.2.father = none)) :
    joint_probability people one_gene two_genes have_trait =
      jointProbabilitySpec people one_gene two_genes have_trait := by
  unfold joint_probability jointProbabilitySpec
  have : people.map (personFactor one_gene two_genes have_trait) =
      people.map (personFactorSpec one_gene two_genes have_trait) :=
    List.map_congr_left fun q hq =>
      personFactor_eq_spec one_gene two_genes have_trait q (hinv q hq)
  rw [this]

/-- C1 witness: the theorem applied to a concrete three-person pedigree
(two founders and one child with both parents recorded). -/
theorem joint_probability_eq_spec_witness :
    (∀ q ∈ ([(0, ⟨none, none, none⟩), (1, ⟨none, none, some true⟩),
              (2, ⟨some 0, some 1, none⟩)] : People),
        (q.2.mother = none ↔ q.2.father = none)) ∧
    joint_probability
        [(0, ⟨none, none, none⟩), (1, ⟨none, none, some true⟩),
         (2, ⟨some 0, some 1, none⟩)] [2] [1] [1, 2] =
      jointProbabilitySpec
        [(0, ⟨none, none, none⟩), (1, ⟨none, none, some true⟩),
         (2, ⟨some 0, some 1, none⟩)] [2] [1] [1, 2] :=
  ⟨by decide, joint_probability_eq_spec _ _ _ _ (by decide)⟩

/-- `powerset(s)`: the list of all subsets of `s`.  `itertools.combinations`
over the distinct elements of a set yields every subset exactly once; the
claims use only counts and membership, for which `sublists'` is the same
enumeration. -/
def powerset (s : List ℕ) : List (List ℕ) := s.sublists'

/-- The `fails_evidence` check of `main`: some person has a recorded trait
that contradicts membership in the candidate `have_trait` set. -/
def failsEvidence (people : People) (have_trait : List ℕ) : Bool :=
  people.any (fun q =>
    match q.2.trait with
    | some t => t != decide (q.1 ∈ have_trait)
    | none => false)

/-- `names = set(people)`: the person names, as the dict's key list. -/
def namesOf (people : People) : List ℕ := people.map Prod.fst

/-- The triple-nested hypothesis enumeration of `main`: every `have_trait`
subset surviving the evidence check, then every `one_gene` subset of the
names, then every `two_genes` subset of the remaining names (`names -
one_gene`), yielding each visited `(one_gene, two_genes, have_trait)`
triple. -/
def enumerateHypotheses (people : People) :
    List (List ℕ × List ℕ × List ℕ) :=
  let names := namesOf people
  ((powerset names).filter (fun ht => !failsEvidence people ht)).flatMap
    (fun ht => (powerset names).flatMap
      (fun og => (powerset (names.filter (fun x => decide (x ∉ og)))).map
        (fun tg => (og, tg, ht))))

lemma sum_map_two_mul {α : Type _} (l : List α) (g : α → ℕ) :
    (l.map (fun x => 2 * g x)).sum = 2 * (l.map g).sum := by
  induction l with
  | nil => rfl
  | cons a l ih => simp [ih, Nat.mul_add]

lemma sum_pow_filter_not_mem (names : List ℕ) (hnd : names.Nodup) :
    ((powerset names).map
      (fun og => 2 ^ ((names.filter (fun x => decide (x ∉ og))).length))).sum
    = 3 ^ names.length := by
  induction names with
  | nil => rfl
  | cons a l ih =>
      rcases List.nodup_cons.mp hnd with ⟨ha, hl⟩
      unfold powerset
      rw [List.sublists'_cons, List.map_append, List.sum_append, List.map_map]
      have hA : ∀ og ∈ l.sublists',
          2 ^ (((a :: l).filter (fun x => decide (x ∉ og))).length) =
            2 * 2 ^ ((l.filter (fun x => decide (x ∉ og))).length) := by
        intro og hog
        have haog : a ∉ og := fun h =>
          ha ((List.mem_sublists'.mp hog).subset h)
        rw [List.filter_cons_of_pos (by simpa using haog)]
        rw [List.length_cons, pow_succ]
        ring
      have hB : ∀ og ∈ l.sublists',
          ((fun og => 2 ^ ((((a :: l)).filter
              (fun x => decide (x ∉ og))).length)) ∘ (a :: ·)) og =
            2 ^ ((l.filter (fun x => decide (x ∉ og))).length) := by
        intro og _
        simp only [Function.comp]
        rw [List.filter_cons_of_neg (by simp)]
        congr 2
        apply List.filter_congr
        intro x hx
        have hxa : x ≠ a := fun h => ha (h ▸ hx)
        simp [hxa]
      rw [List.map_congr_left hA, List.map_congr_left hB]
      rw [sum_map_two_mul l.sublists'
        (fun og => 2 ^ ((l.filter (fun x => decide (x ∉ og))).length))]
      unfold powerset at ih
      rw [ih hl]
      rw [List.length_cons, pow_succ]
      ring

lemma inner_enum_length (names : List ℕ) (hnd : names.Nodup)
    (ht : List ℕ) :
    ((powerset names).flatMap
      (fun og => (powerset (names.filter (fun x => decide (x ∉ og)))).map
        (fun tg => (og, tg, ht)))).length = 3 ^ names.length := by
  rw [List.length_flatMap]
  simp only [Function.comp_def, List.length_map]
  have h : ∀ og ∈ powerset names,
      (powerset (names.filter (fun x => decide (x ∉ og)))).length =
      2 ^ ((names.filter (fun x => decide (x ∉ og))).length) :=
    fun og _ => List.length_sublists' _
  rw [List.map_congr_left h]
  exact sum_pow_filter_not_mem names hnd

lemma failsEvidence_cons_notin (people : People) (x : ℕ) (ht : List ℕ)
    (hx : x ∉ namesOf people) :
    failsEvidence people (x :: ht) = failsEvidence people ht := by
  unfold failsEvidence
  induction people with
  | nil => rfl
  | cons q rest ih =>
      have hqx : q.1 ≠ x := by
        intro h
        exact hx (by rw [← h]; exact List.mem_cons_self _ _)
      have hrest : x ∉ namesOf rest := fun h =>
        hx (List.mem_cons_of_mem _ h)
      rw [List.any_cons, List.any_cons, ih hrest]
      congr 1
      rcases q.2.trait with _ | t
      · rfl
      · simp [List.mem_cons, hqx]

lemma survivors_length (people : People) (hnd : (namesOf people).Nodup) :
    ((powerset (namesOf people)).filter
      (fun ht => !failsEvidence people ht)).length
    = 2 ^ ((namesOf people).length
        - (people.filter (fun q => q.2.trait.isSome)).length) := by
  induction people with
  | nil => rfl
  | cons q rest ih =>
      have hcons : namesOf (q :: rest) = q.1 :: namesOf rest := rfl
      rw [hcons] at hnd
      rcases List.nodup_cons.mp hnd with ⟨ha, hl⟩
      have hm_le : (rest.filter (fun r => r.2.trait.isSome)).length ≤
          (namesOf rest).length := by
        have h1 := List.length_filter_le (fun r => r.2.trait.isSome) rest
        simpa [namesOf] using h1
      have hS := ih hl
      have hfe : ∀ ht, failsEvidence (q :: rest) ht =
          ((match q.2.trait with
            | some t => t != decide (q.1 ∈ ht)
            | none => false) || failsEvidence rest ht) := by
        intro ht
        rfl
      rw [hcons]
      unfold powerset
      rw [List.sublists'_cons, List.filter_append, List.length_append,
        List.filter_map]
      have hnotin : ∀ ht ∈ (namesOf rest).sublists', q.1 ∉ ht := by
        intro ht hht h
        exact ha ((List.mem_sublists'.mp hht).subset h)
      rcases htr : q.2.trait with _ | t
      · have hA : ∀ ht ∈ (namesOf rest).sublists',
            (!failsEvidence (q :: rest) ht) = (!failsEvidence rest ht) := by
          intro ht _
          rw [hfe, htr]
          rfl
        have hB : ∀ ht ∈ (namesOf rest).sublists',
            ((fun ht => !failsEvidence (q :: rest) ht) ∘ (q.1 :: ·)) ht =
              (!failsEvidence rest ht) := by
          intro ht hht
          simp only [Function.comp]
          rw [hfe, htr, failsEvidence_cons_notin rest q.1 ht ha]
          rfl
        rw [List.filter_congr hA, List.filter_congr hB, List.length_map]
        unfold powerset at hS
        rw [hS]
        have hmfilter : ((q :: rest).filter
            (fun r => r.2.trait.isSome)).length =
            (rest.filter (fun r => r.2.trait.isSome)).length := by
          rw [List.filter_cons_of_neg (by simp [htr])]
        rw [hmfilter, List.length_cons,
          Nat.succ_sub (le_trans hm_le (by simp [namesOf])), pow_succ]
        ring
      · have hmfilter : ((q :: rest).filter
            (fun r => r.2.trait.isSome)).length =
            (rest.filter (fun r => r.2.trait.isSome)).length + 1 := by
          rw [List.filter_cons_of_pos (by simp [htr]), List.length_cons]
        rcases t with _ | _
        · -- observed trait `false`: only subsets without the person survive
          have hA : ∀ ht ∈ (namesOf rest).sublists',
              (!failsEvidence (q :: rest) ht) = (!failsEvidence rest ht) := by
            intro ht hht
            rw [hfe, htr]
            have : decide (q.1 ∈ ht) = false := by
              simpa using hnotin ht hht
            rw [this]
            rfl
          have hB : ∀ ht ∈ (namesOf rest).sublists',
              ((fun ht => !failsEvidence (q :: rest) ht) ∘ (q.1 :: ·)) ht =
                false := by
            intro ht _
            simp only [Function.comp]
            rw [hfe, htr]
            have : decide (q.1 ∈ q.1 :: ht) = true := by simp
            rw [this]
            rfl
          rw [List.filter_congr hA, List.filter_congr hB, List.filter_false,
            List.length_map, List.length_nil]
          unfold powerset at hS
          rw [hS, hmfilter, List.length_cons, Nat.succ_sub_succ]
          ring
        · -- observed trait `true`: only subsets containing the person survive
          have hA : ∀ ht ∈ (namesOf rest).sublists',
              (!failsEvidence (q :: rest) ht) = false := by
            intro ht hht
            rw [hfe, htr]
            have : decide (q.1 ∈ ht) = false := by
              simpa using hnotin ht hht
            rw [this]
            rfl
          have hB : ∀ ht ∈ (namesOf rest).sublists',
              ((fun ht => !failsEvidence (q :: rest) ht) ∘ (q.1 :: ·)) ht =
                (!failsEvidence rest ht) := by
            intro ht _
            simp only [Function.comp]
            rw [hfe, htr, failsEvidence_cons_notin rest q.1 ht ha]
            have : decide (q.1 ∈ q.1 :: ht) = true := by simp
            rw [this]
            rfl
          rw [List.filter_congr hA, List.filter_false, List.filter_congr hB,
            List.length_map, List.length_nil]
          unfold powerset at hS
          rw [hS, hmfilter, List.length_cons, Nat.succ_sub_succ]
          ring

/-- C3: with distinct person names, the hypothesis enumeration of `main`
visits exactly `6^k / 2^m` triples, where `k` is the number of persons and
`m` the number of persons with an observed trait; in particular exactly
`6^k` triples when no trait is observed. -/
theorem hypothesis_count (people : People)
    (hnd : (namesOf people).Nodup) :
    (enumerateHypotheses people).length =
        6 ^ (namesOf people).length /
          2 ^ (people.filter (fun q => q.2.trait.isSome)).length ∧
      ((∀ q ∈ people, q.2.trait = none) →
        (enumerateHypotheses people).length = 6 ^ (namesOf people).length) := by
  set k := (namesOf people).length with hk
  set m := (people.filter (fun q => q.2.trait.isSome)).length with hm
  have hmk : m ≤ k := by
    rw [hm, hk]
    have h1 := List.length_filter_le (fun q => q.2.trait.isSome) people
    simpa [namesOf] using h1
  have hmain : (enumerateHypotheses people).length = 2 ^ (k - m) * 3 ^ k := by
    unfold enumerateHypotheses
    rw [List.length_flatMap]
    have hconst : ∀ ht ∈ ((powerset (namesOf people)).filter
        (fun ht => !failsEvidence people ht)),
        ((powerset (namesOf people)).flatMap
          (fun og => (powerset ((namesOf people).filter
              (fun x => decide (x ∉ og)))).map
            (fun tg => (og, tg, ht)))).length = 3 ^ k :=
      fun ht _ => inner_enum_length (namesOf people) hnd ht
    simp only [Function.comp_def]
    rw [List.map_congr_left hconst, List.map_const', List.sum_replicate,
      smul_eq_mul, survivors_length people hnd]
  have hdiv : 6 ^ k / 2 ^ m = 2 ^ (k - m) * 3 ^ k := by
    have h6 : (6 : ℕ) ^ k = 2 ^ m * (2 ^ (k - m) * 3 ^ k) := by
      have h2 : (2 : ℕ) ^ k = 2 ^ m * 2 ^ (k - m) := by
        rw [← pow_add, Nat.add_sub_cancel' hmk]
      calc (6 : ℕ) ^ k = (2 * 3) ^ k := by norm_num
        _ = 2 ^ k * 3 ^ k := by rw [mul_pow]
        _ = 2 ^ m * 2 ^ (k - m) * 3 ^ k := by rw [h2]
        _ = 2 ^ m * (2 ^ (k - m) * 3 ^ k) := by ring
    rw [h6, Nat.mul_div_cancel_left _ (Nat.pos_pow_of_pos m (by norm_num))]
  refine ⟨by rw [hmain, hdiv], fun hno => ?_⟩
  have hm0 : m = 0 := by
    rw [hm, List.length_eq_zero, List.filter_eq_nil_iff]
    intro q hq
    rw [hno q hq]
    simp
  rw [hmain, hm0, Nat.sub_zero, ← Nat.mul_pow]

/-- C3 witness: the theorem applied to a concrete two-person pedigree with
one observed trait: `k = 2`, `m = 1`, so `6^2 / 2^1 = 18` triples. -/
theorem hypothesis_count_witness :
    (namesOf [(0, ⟨none, none, none⟩),
        (1, ⟨none, none, some true⟩)] : List ℕ).Nodup ∧
    (enumerateHypotheses
        [(0, ⟨none, none, none⟩), (1, ⟨none, none, some true⟩)]).length =
      6 ^ (namesOf [(0, ⟨none, none, none⟩),
          (1, ⟨none, none, some true⟩)]).length /
      2 ^ (([(0, (⟨none, none, none⟩ : PersonData)),
          (1, ⟨none, none, some true⟩)]).filter
          (fun q => q.2.trait.isSome)).length :=
  ⟨by decide, (hypothesis_count _ (by decide)).1⟩

/-- Per-person slot of the `probabilities` table of `main`: three gene
buckets and two trait buckets. -/
structure PDist where
  gene0 : ℚ
  gene1 : ℚ
  gene2 : ℚ
  traitTrue : ℚ
  traitFalse : ℚ
deriving DecidableEq

/-- The all-zero slot `main` initializes each person with. -/
def initDist : PDist := ⟨0, 0, 0, 0, 0⟩

/-- `update(probabilities, one_gene, two_genes, have_trait, p)`: adds the
joint probability `p` to the matching gene bucket and the matching trait
bucket of every person in the table. -/
def update (names : List ℕ) (probabilities : ℕ → PDist)
    (one_gene two_genes have_trait : List ℕ) (p : ℚ) : ℕ → PDist :=
  fun person =>
    if person ∈ names then
      let d := probabilities person
      let d1 :=
        if person ∈ two_genes then { d with gene2 := d.gene2 + p }
        else if person ∈ one_gene then { d with gene1 := d.gene1 + p }
        else { d with gene0 := d.gene0 + p }
      if person ∈ have_trait then { d1 with traitTrue := d1.traitTrue + p }
      else { d1 with traitFalse := d1.traitFalse + p }
    else probabilities person

/-- `normalize(probabilities)`: rescales each person's gene distribution by
its own sum and trait distribution by its own sum. -/
def normalize (names : List ℕ) (probabilities : ℕ → PDist) : ℕ → PDist :=
  fun person =>
    if person ∈ names then
      let d := probabilities person
      let sg := d.gene0 + d.gene1 + d.gene2
      let st := d.traitTrue + d.traitFalse
      ⟨d.gene0 / sg, d.gene1 / sg, d.gene2 / sg,
        d.traitTrue / st, d.traitFalse / st⟩
    else probabilities person

/-- Gene-bucket total of a table slot: the gene normalization divisor. -/
def geneMass (d : PDist) : ℚ := d.gene0 + d.gene1 + d.gene2

/-- Trait-bucket total of a table slot: the trait normalization divisor. -/
def traitMass (d : PDist) : ℚ := d.traitTrue + d.traitFalse

/-- An arbitrary sequence of `update` calls applied to the all-zero table:
each element carries the three sets and the added joint probability. -/
def foldUpdates (names : List ℕ)
    (updates : List ((List ℕ × List ℕ × List ℕ) × ℚ)) : ℕ → PDist :=
  updates.foldl
    (fun t u => update names t u.1.1 u.1.2.1 u.1.2.2 u.2)
    (fun _ => initDist)

/-- The accumulation loop of `main`: fold `update` over the visited
hypothesis triples, starting from the all-zero table. -/
def accumulate (people : People) : ℕ → PDist :=
  (enumerateHypotheses people).foldl
    (fun t h => update (namesOf people) t h.1 h.2.1 h.2.2
      (joint_probability people h.1 h.2.1 h.2.2))
    (fun _ => initDist)

/-- The pipeline of `main` after loading: accumulate, then normalize. -/
def computeProbabilities (people : People) : ℕ → PDist :=
  normalize (namesOf people) (accumulate people)

lemma update_buckets (names : List ℕ) (t : ℕ → PDist)
    (og tg ht : List ℕ) (p : ℚ) (person : ℕ) :
    (update names t og tg ht p person).gene2 = (t person).gene2 +
        (if person ∈ names ∧ geneCount og tg person = 2 then p else 0) ∧
    (update names t og tg ht p person).gene1 = (t person).gene1 +
        (if person ∈ names ∧ geneCount og tg person = 1 then p else 0) ∧
    (update names t og tg ht p person).gene0 = (t person).gene0 +
        (if person ∈ names ∧ geneCount og tg person = 0 then p else 0) ∧
    (update names t og tg ht p person).traitTrue = (t person).traitTrue +
        (if person ∈ names ∧ person ∈ ht then p else 0) ∧
    (update names t og tg ht p person).traitFalse = (t person).traitFalse +
        (if person ∈ names ∧ person ∉ ht then p else 0) := by
  unfold update geneCount
  by_cases h1 : person ∈ names <;> by_cases h2 : person ∈ tg <;>
    by_cases h3 : person ∈ og <;> by_cases h4 : person ∈ ht <;>
      simp [h1, h2, h3, h4]

lemma update_geneMass (names : List ℕ) (t : ℕ → PDist)
    (og tg ht : List ℕ) (p : ℚ) (person : ℕ) :
    geneMass (update names t og tg ht p person) =
      geneMass (t person) + (if person ∈ names then p else 0) := by
  unfold update geneMass
  by_cases h1 : person ∈ names <;> by_cases h2 : person ∈ tg <;>
    by_cases h3 : person ∈ og <;> by_cases h4 : person ∈ ht <;>
      simp [h1, h2, h3, h4] <;> ring

lemma update_traitMass (names : List ℕ) (t : ℕ → PDist)
    (og tg ht : List ℕ) (p : ℚ) (person : ℕ) :
    traitMass (update names t og tg ht p person) =
      traitMass (t person) + (if person ∈ names then p else 0) := by
  unfold update traitMass
  by_cases h1 : person ∈ names <;> by_cases h2 : person ∈ tg <;>
    by_cases h3 : person ∈ og <;> by_cases h4 : person ∈ ht <;>
      simp [h1, h2, h3, h4] <;> ring

lemma foldl_geneMass (names : List ℕ)
    (updates : List ((List ℕ × List ℕ × List ℕ) × ℚ)) (person : ℕ) :
    ∀ t : ℕ → PDist,
      geneMass ((updates.foldl
          (fun t u => update names t u.1.1 u.1.2.1 u.1.2.2 u.2) t) person) =
        geneMass (t person) +
          (if person ∈ names then (updates.map Prod.snd).sum else 0) := by
  induction updates with
  | nil => intro t; simp
  | cons u us ih =>
      intro t
      rw [List.foldl_cons, ih, update_geneMass]
      rw [List.map_cons, List.sum_cons]
      by_cases h : person ∈ names <;> simp [h] <;> ring

lemma foldl_traitMass (names : List ℕ)
    (updates : List ((List ℕ × List ℕ × List ℕ) × ℚ)) (person : ℕ) :
    ∀ t : ℕ → PDist,
      traitMass ((updates.foldl
          (fun t u => update names t u.1.1 u.1.2.1 u.1.2.2 u.2) t) person) =
        traitMass (t person) +
          (if person ∈ names then (updates.map Prod.snd).sum else 0) := by
  induction updates with
  | nil => intro t; simp
  | cons u us ih =>
      intro t
      rw [List.foldl_cons, ih, update_traitMass]
      rw [List.map_cons, List.sum_cons]
      by_cases h : person ∈ names <;> simp [h] <;> ring

/-- C10: each `update` call adds `p` to the one gene bucket selected by the
hypothesis's gene count and to the one trait bucket selected by trait
membership; therefore after any sequence of `update` calls on the all-zero
table, every person's gene-bucket total and trait-bucket total both equal
the accumulated joint mass, so the two divisors `normalize` uses are
equal. -/
theorem update_mass_balanced (names : List ℕ)
    (updates : List ((List ℕ × List ℕ × List ℕ) × ℚ)) (person : ℕ) :
    (∀ (t : ℕ → PDist) (og tg ht : List ℕ) (p : ℚ),
      (update names t og tg ht p person).gene2 = (t person).gene2 +
          (if person ∈ names ∧ geneCount og tg person = 2 then p else 0) ∧
      (update names t og tg ht p person).gene1 = (t person).gene1 +
          (if person ∈ names ∧ geneCount og tg person = 1 then p else 0) ∧
      (update names t og tg ht p person).gene0 = (t person).gene0 +
          (if person ∈ names ∧ geneCount og tg person = 0 then p else 0) ∧
      (update names t og tg ht p person).traitTrue = (t person).traitTrue +
          (if person ∈ names ∧ person ∈ ht then p else 0) ∧
      (update names t og tg ht p person).traitFalse = (t person).traitFalse +
          (if person ∈ names ∧ person ∉ ht then p else 0)) ∧
    geneMass (foldUpdates names updates person) =
        (if person ∈ names then (updates.map Prod.snd).sum else 0) ∧
    traitMass (foldUpdates names updates person) =
        (if person ∈ names then (updates.map Prod.snd).sum else 0) ∧
    geneMass (foldUpdates names updates person) =
        traitMass (foldUpdates names updates person) := by
  have hg : geneMass (foldUpdates names updates person) =
      (if person ∈ names then (updates.map Prod.snd).sum else 0) := by
    unfold foldUpdates
    rw [foldl_geneMass]
    simp [initDist, geneMass]
  have ht : traitMass (foldUpdates names updates person) =
      (if person ∈ names then (updates.map Prod.snd).sum else 0) := by
    unfold foldUpdates
    rw [foldl_traitMass]
    simp [initDist, traitMass]
  exact ⟨fun t og tg ht p => update_buckets names t og tg ht p person,
    hg, ht, by rw [hg, ht]⟩

/-- C8: for the one-person pedigree with no parents and no observed trait,
the normalized gene distribution of the full pipeline equals the
unconditional prior exactly. -/
theorem one_person_prior :
    (computeProbabilities [(0, ⟨none, none, none⟩)] 0).gene0 = 96/100 ∧
    (computeProbabilities [(0, ⟨none, none, none⟩)] 0).gene1 = 3/100 ∧
    (computeProbabilities [(0, ⟨none, none, none⟩)] 0).gene2 = 1/100 :=
  ⟨by with_unfolding_all rfl, by with_unfolding_all rfl,
    by with_unfolding_all rfl⟩

/-- C7 (amended): the pedigree pipeline performs no validation of parent
references.  On a one-person pedigree whose mother and father name anyone
outside both gene sets (in particular unknown names), `joint_probability`
proceeds and returns the numeric product in which each such parent passes
the gene with the mutation rate, exactly as a known zero-gene parent
would. -/
theorem unknown_parent_silently_computed (c m f : ℕ) (og tg ht : List ℕ)
    (hm2 : m ∉ tg) (hm1 : m ∉ og) (hf2 : f ∉ tg) (hf1 : f ∉ og) :
    joint_probability [(c, ⟨some m, some f, none⟩)] og tg ht =
      (if geneCount og tg c = 2 then PROBS_mutation * PROBS_mutation
       else if geneCount og tg c = 1 then
         PROBS_mutation * (1 - PROBS_mutation) +
           (1 - PROBS_mutation) * PROBS_mutation
       else (1 - PROBS_mutation) * (1 - PROBS_mutation)) *
        PROBS_trait (geneCount og tg c) (decide (c ∈ ht)) := by
  unfold joint_probability personFactor passProb
  simp [hm1, hm2, hf1, hf2]

/-- C7 witness: the amended theorem applied to a pedigree whose only person
references the unknown names `99` and `98` as parents. -/
theorem unknown_parent_silently_computed_witness :
    ((99 : ℕ) ∉ ([] : List ℕ) ∧ (99 : ℕ) ∉ ([] : List ℕ) ∧
     (98 : ℕ) ∉ ([] : List ℕ) ∧ (98 : ℕ) ∉ ([] : List ℕ)) ∧
    joint_probability [(0, ⟨some 99, some 98, none⟩)] [] [] [] =
      (if geneCount [] [] 0 = 2 then PROBS_mutation * PROBS_mutation
       else if geneCount [] [] 0 = 1 then
         PROBS_mutation * (1 - PROBS_mutation) +
           (1 - PROBS_mutation) * PROBS_mutation
       else (1 - PROBS_mutation) * (1 - PROBS_mutation)) *
        PROBS_trait (geneCount [] [] 0) (decide ((0 : ℕ) ∈ ([] : List ℕ))) :=
  ⟨by decide, unknown_parent_silently_computed 0 99 98 [] [] []
    (by decide) (by decide) (by decide) (by decide)⟩

/-- C7 counterexample: the pedigree whose only person lists the unknown
name `99` as both parents is processed without any error being surfaced:
`joint_probability` silently returns a plain number (the unknown reference
is treated as a parent with zero gene copies). -/
theorem unknown_parent_counterexample :
    (99 : ℕ) ∉ namesOf [(0, ⟨some 99, some 99, none⟩)] ∧
    joint_probability [(0, ⟨some 99, some 99, none⟩)] [] [] [] =
      (9801/10000) * (99/100) :=
  ⟨by decide, by with_unfolding_all rfl⟩

end Heredity

namespace PageRank

/-- A corpus is a page list (the dict's keys) together with each page's
outbound link set `corpus[p]`, both as duplicate-free lists. -/
abbrev Links := ℕ → List ℕ

lemma sum_map_add {α : Type _} (l : List α) (f g : α → ℚ) :
    (l.map (fun x => f x + g x)).sum = (l.map f).sum + (l.map g).sum := by
  induction l with
  | nil => simp
  | cons a t ih => simp [ih]; ring

lemma sum_map_mul_left {α : Type _} (l : List α) (c : ℚ) (f : α → ℚ) :
    (l.map (fun x => c * f x)).sum = c * (l.map f).sum := by
  induction l with
  | nil => simp
  | cons a t ih => simp [ih]; ring

lemma sum_map_const {α : Type _} (l : List α) (c : ℚ) :
    (l.map (fun _ => c)).sum = l.length * c := by
  induction l with
  | nil => simp
  | cons a t ih => simp [ih]; ring

lemma sum_map_ite_mem (pages sub : List ℕ) (hnd : pages.Nodup)
    (hsnd : sub.Nodup) (hsub : ∀ x ∈ sub, x ∈ pages) (c : ℚ) :
    (pages.map (fun q => if q ∈ sub then c else 0)).sum = sub.length * c := by
  rw [← List.sum_toFinset _ hnd]
  have hcong : ∀ q ∈ pages.toFinset,
      (if q ∈ sub then c else 0) = (if q ∈ sub.toFinset then c else 0) := by
    intro q _
    simp [List.mem_toFinset]
  rw [Finset.sum_congr rfl hcong, Finset.sum_ite_mem]
  have hinter : pages.toFinset ∩ sub.toFinset = sub.toFinset :=
    Finset.inter_eq_right.mpr (fun x hx =>
      List.mem_toFinset.mpr (hsub x (List.mem_toFinset.mp hx)))
  rw [hinter, Finset.sum_const, List.toFinset_card_of_nodup hsnd,
    nsmul_eq_mul]

/-- The per-page probability `transition_model` stores for page `q`:
`(1-d)/N` for every page, plus `d/len(linked_pages)` when `q` is among the
linked pages (the whole corpus when the current page is dangling). -/
def transition_prob (pages : List ℕ) (links : Links) (page : ℕ) (d : ℚ)
    (q : ℕ) : ℚ :=
  let linked_pages := if links page = [] then pages else links page
  let total_linked_pages : ℚ :=
    if links page = [] then (pages.length : ℚ) else ((links page).length : ℚ)
  let probability_linked := d / total_linked_pages
  let probability_unlinked := (1 - d) / (pages.length : ℚ)
  probability_unlinked + if q ∈ linked_pages then probability_linked else 0

/-- `transition_model(corpus, page, damping_factor)`, translated clause by
clause: dangling pages redirect to the whole corpus, every page receives
`(1-d)/N`, and every linked page additionally receives `d/len(links)`. -/
def transition_model (pages : List ℕ) (links : Links) (page : ℕ)
    (d : ℚ) : List (ℕ × ℚ) :=
  pages.map (fun q => (q, transition_prob pages links page d q))

lemma transition_prob_dangling (pages : List ℕ) (links : Links)
    (page : ℕ) (d : ℚ) (q : ℕ) (hdang : links page = []) (hq : q ∈ pages) :
    transition_prob pages links page d q =
      (1 - d) / (pages.length : ℚ) + d / (pages.length : ℚ) := by
  unfold transition_prob
  simp [hdang, hq]

lemma transition_prob_linked (pages : List ℕ) (links : Links)
    (page : ℕ) (d : ℚ) (q : ℕ) (hdang : links page ≠ []) :
    transition_prob pages links page d q =
      (1 - d) / (pages.length : ℚ) +
        if q ∈ links page then d / ((links page).length : ℚ) else 0 := by
  unfold transition_prob
  simp [hdang]

/-- C9: on every corpus with duplicate-free keys whose link sets are
duplicate-free subsets of the page set, for every page of the corpus and
every damping factor in `[0, 1]`, `transition_model` returns a mapping whose
key list is exactly the corpus's page list, whose values are all
non-negative, and whose values sum exactly to `1`. -/
theorem transition_model_valid (pages : List ℕ) (links : Links)
    (page : ℕ) (d : ℚ) (hnd : pages.Nodup) (hpage : page ∈ pages)
    (hlinks : ∀ p ∈ pages, (links p).Nodup ∧ ∀ q ∈ links p, q ∈ pages)
    (hd0 : 0 ≤ d) (hd1 : d ≤ 1) :
    ((transition_model pages links page d).map Prod.fst = pages) ∧
    (∀ pr ∈ transition_model pages links page d, 0 ≤ pr.2) ∧
    ((transition_model pages links page d).map Prod.snd).sum = 1 := by
  have hN : (0 : ℚ) < (pages.length : ℚ) := by
    have : pages.length ≠ 0 :=
      fun h => (List.ne_nil_of_mem hpage) (List.length_eq_zero.mp h)
    exact_mod_cast Nat.pos_of_ne_zero this
  have hpu : (0 : ℚ) ≤ (1 - d) / (pages.length : ℚ) :=
    div_nonneg (by linarith) (le_of_lt hN)
  have hsum : ((transition_model pages links page d).map Prod.snd) =
      pages.map (transition_prob pages links page d) := by
    unfold transition_model
    rw [List.map_map]
    rfl
  refine ⟨?_, ?_, ?_⟩
  · unfold transition_model
    rw [List.map_map]
    have hid : ∀ q ∈ pages,
        (Prod.fst ∘ fun q => (q, transition_prob pages links page d q)) q =
          id q := fun q _ => rfl
    rw [List.map_congr_left hid, List.map_id]
  · intro pr hpr
    unfold transition_model at hpr
    rw [List.mem_map] at hpr
    rcases hpr with ⟨q, hq, rfl⟩
    by_cases hdang : links page = []
    · rw [transition_prob_dangling pages links page d q hdang hq]
      have : (0 : ℚ) ≤ d / (pages.length : ℚ) :=
        div_nonneg hd0 (le_of_lt hN)
      linarith
    · rw [transition_prob_linked pages links page d q hdang]
      have hL : (0 : ℚ) < ((links page).length : ℚ) := by
        have : (links page).length ≠ 0 :=
          fun h => hdang (List.length_eq_zero.mp h)
        exact_mod_cast Nat.pos_of_ne_zero this
      have : (0 : ℚ) ≤ d / ((links page).length : ℚ) :=
        div_nonneg hd0 (le_of_lt hL)
      split <;> linarith
  · rw [hsum]
    by_cases hdang : links page = []
    · have hfun : ∀ q ∈ pages, transition_prob pages links page d q =
          (1 - d) / (pages.length : ℚ) + d / (pages.length : ℚ) :=
        fun q hq => transition_prob_dangling pages links page d q hdang hq
      rw [List.map_congr_left hfun, sum_map_const]
      field_simp
    · have hL : (0 : ℚ) < ((links page).length : ℚ) := by
        have : (links page).length ≠ 0 :=
          fun h => hdang (List.length_eq_zero.mp h)
        exact_mod_cast Nat.pos_of_ne_zero this
      have hfun : ∀ q ∈ pages, transition_prob pages links page d q =
          (1 - d) / (pages.length : ℚ) +
            (if q ∈ links page then d / ((links page).length : ℚ) else 0) :=
        fun q _ => transition_prob_linked pages links page d q hdang
      rw [List.map_congr_left hfun, sum_map_add, sum_map_const,
        sum_map_ite_mem pages (links page) hnd (hlinks page hpage).1
          (hlinks page hpage).2]
      field_simp

/-- A two-page corpus (page `0` links to page `1`, page `1` dangling) used
by the witnesses. -/
def examplePages : List ℕ := [0, 1]

/-- The link sets of the two-page example corpus. -/
def exampleLinks : Links := fun p => if p = 0 then [1] else []

/-- C9 witness: the theorem applied to the concrete two-page corpus at the
default damping factor `0.85`. -/
theorem transition_model_valid_witness :
    (examplePages.Nodup ∧ (0 : ℕ) ∈ examplePages ∧
      (∀ p ∈ examplePages, (exampleLinks p).Nodup ∧
        ∀ q ∈ exampleLinks p, q ∈ examplePages) ∧
      (0 : ℚ) ≤ 17/20 ∧ (17/20 : ℚ) ≤ 1) ∧
    ((transition_model examplePages exampleLinks 0 (17/20)).map Prod.fst
        = examplePages) ∧
    (∀ pr ∈ transition_model examplePages exampleLinks 0 (17/20),
        0 ≤ pr.2) ∧
    ((transition_model examplePages exampleLinks 0 (17/20)).map
        Prod.snd).sum = 1 :=
  ⟨⟨by decide, by decide, by decide,
      of_decide_eq_true (by with_unfolding_all rfl),
      of_decide_eq_true (by with_unfolding_all rfl)⟩,
    transition_model_valid examplePages exampleLinks 0 (17/20) (by decide)
      (by decide) (by decide)
      (of_decide_eq_true (by with_unfolding_all rfl))
      (of_decide_eq_true (by with_unfolding_all rfl))⟩

/-- One pass of the `while` loop body of `iterate_pagerank`: for every page,
`(1-d)/N` plus, over all pages `i`, the dangling share `d*rank[i]/N`, the
link share `d*rank[i]/len(corpus[i])` when `i` links to the page, and `0`
otherwise. -/
def prStep (pages : List ℕ) (links : Links) (d : ℚ)
    (pagerank : ℕ → ℚ) : ℕ → ℚ :=
  fun page =>
    (1 - d) / (pages.length : ℚ) +
      (pages.map (fun i =>
        if links i = [] then d * pagerank i / (pages.length : ℚ)
        else if page ∈ links i then d * pagerank i / ((links i).length : ℚ)
        else 0)).sum

/-- The loop's convergence test: every page moved by strictly less than
`0.001`. -/
def converged (pages : List ℕ) (pagerank new_pagerank : ℕ → ℚ) : Bool :=
  pages.all (fun page =>
    decide (|pagerank page - new_pagerank page| < 1/1000))

/-- The `while True` loop of `iterate_pagerank`, with explicit fuel standing
for the unbounded iteration: returns the first newly computed vector whose
change from its predecessor passes the convergence test, or `none` if the
fuel runs out first. -/
def prLoop (pages : List ℕ) (links : Links) (d : ℚ) :
    ℕ → (ℕ → ℚ) → Option (ℕ → ℚ)
  | 0, _ => none
  | fuel + 1, pagerank =>
      let new_pagerank := prStep pages links d pagerank
      if converged pages pagerank new_pagerank then some new_pagerank
      else prLoop pages links d fuel new_pagerank

/-- `iterate_pagerank(corpus, damping_factor)`: start every page at `1/N`
and iterate the loop. -/
def iterate_pagerank (pages : List ℕ) (links : Links) (d : ℚ)
    (fuel : ℕ) : Option (ℕ → ℚ) :=
  prLoop pages links d fuel (fun _ => 1 / (pages.length : ℚ))

/-- The claim's `contribution(i, p)`: `rank[i]/N` for a page with no
outbound links, `rank[i]/|outlinks(i)|` when `i` links to `p`, else `0`. -/
def contribution (pages : List ℕ) (links : Links) (rank : ℕ → ℚ)
    (i p : ℕ) : ℚ :=
  if links i = [] then rank i / (pages.length : ℚ)
  else if p ∈ links i then rank i / ((links i).length : ℚ)
  else 0

/-- The claim's recurrence:
`new_rank[p] = (1-d)/N + d * Σ_i contribution(i, p)`. -/
def specStep (pages : List ℕ) (links : Links) (d : ℚ)
    (rank : ℕ → ℚ) : ℕ → ℚ :=
  fun p =>
    (1 - d) / (pages.length : ℚ) +
      d * (pages.map (fun i => contribution pages links rank i p)).sum

/-- The claim's stopping condition: every page's absolute change is
strictly below `0.001` (a change of exactly `0.001` does not count). -/
def convergedSpec (pages : List ℕ) (r s : ℕ → ℚ) : Prop :=
  ∀ p ∈ pages, |r p - s p| < 1/1000

lemma prStep_eq_specStep (pages : List ℕ) (links : Links) (d : ℚ) :
    prStep pages links d = specStep pages links d := by
  funext rank page
  unfold prStep specStep contribution
  congr 1
  have h : ∀ i ∈ pages,
      (if links i = [] then d * rank i / (pages.length : ℚ)
       else if page ∈ links i then d * rank i / ((links i).length : ℚ)
       else 0) =
      d * (if links i = [] then rank i / (pages.length : ℚ)
           else if page ∈ links i then rank i / ((links i).length : ℚ)
           else 0) := by
    intro i _
    by_cases h1 : links i = []
    · simp only [h1, if_true, eq_self_iff_true]
      ring
    · by_cases h2 : page ∈ links i <;> simp [h1, h2] <;> ring
  rw [List.map_congr_left h, sum_map_mul_left]

lemma converged_eq_true_iff (pages : List ℕ) (r s : ℕ → ℚ) :
    converged pages r s = true ↔ convergedSpec pages r s := by
  unfold converged convergedSpec
  rw [List.all_eq_true]
  constructor
  · intro h p hp
    exact of_decide_eq_true (h p hp)
  · intro h p hp
    exact decide_eq_true (h p hp)

lemma prLoop_characterization (pages : List ℕ) (links : Links) (d : ℚ) :
    ∀ (fuel : ℕ) (r v : ℕ → ℚ), prLoop pages links d fuel r = some v →
      ∃ k, k < fuel ∧ v = (prStep pages links d)^[k+1] r ∧
        converged pages ((prStep pages links d)^[k] r)
          ((prStep pages links d)^[k+1] r) = true ∧
        ∀ j < k, converged pages ((prStep pages links d)^[j] r)
          ((prStep pages links d)^[j+1] r) = false := by
  intro fuel
  induction fuel with
  | zero =>
      intro r v h
      exact absurd h (by unfold prLoop; exact Option.noConfusion)
  | succ n ih =>
      intro r v h
      unfold prLoop at h
      by_cases hc : converged pages r (prStep pages links d r) = true
      · rw [if_pos hc] at h
        refine ⟨0, Nat.succ_pos n, ?_, ?_, ?_⟩
        · rw [← Option.some.inj h, Function.iterate_one]
        · simpa using hc
        · intro j hj
          omega
      · rw [if_neg hc] at h
        rcases ih (prStep pages links d r) v h with ⟨k, hk, hv, hconv, hprev⟩
        refine ⟨k + 1, by omega, ?_, ?_, ?_⟩
        · rw [hv, ← Function.iterate_succ_apply]
        · simp only [← Function.iterate_succ_apply] at hconv
          exact hconv
        · intro j hj
          match j with
          | 0 =>
              simpa using Bool.eq_false_iff.mpr hc
          | j' + 1 =>
              have hj' : j' < k := by omega
              have hp := hprev j' hj'
              simp only [← Function.iterate_succ_apply] at hp
              exact hp

lemma row_sum (pages : List ℕ) (links : Links) (d : ℚ)
    (hnd : pages.Nodup)
    (hlinks : ∀ p ∈ pages, (links p).Nodup ∧ ∀ q ∈ links p, q ∈ pages)
    (hne : pages ≠ []) (r : ℕ → ℚ) (i : ℕ) (hi : i ∈ pages) :
    (pages.map (fun p =>
      if links i = [] then d * r i / (pages.length : ℚ)
      else if p ∈ links i then d * r i / ((links i).length : ℚ)
      else 0)).sum = d * r i := by
  have hN : ((pages.length : ℚ)) ≠ 0 := by
    have : pages.length ≠ 0 := fun h => hne (List.length_eq_zero.mp h)
    exact_mod_cast this
  by_cases hdang : links i = []
  · have hfun : ∀ p ∈ pages,
        (if links i = [] then d * r i / (pages.length : ℚ)
         else if p ∈ links i then d * r i / ((links i).length : ℚ)
         else 0) = d * r i / (pages.length : ℚ) := by
      intro p _
      rw [if_pos hdang]
    rw [List.map_congr_left hfun, sum_map_const]
    field_simp
  · have hL : (((links i).length : ℚ)) ≠ 0 := by
      have : (links i).length ≠ 0 := fun h => hdang (List.length_eq_zero.mp h)
      exact_mod_cast this
    have hfun : ∀ p ∈ pages,
        (if links i = [] then d * r i / (pages.length : ℚ)
         else if p ∈ links i then d * r i / ((links i).length : ℚ)
         else 0) =
          (if p ∈ links i then d * r i / ((links i).length : ℚ) else 0) := by
      intro p _
      rw [if_neg hdang]
    rw [List.map_congr_left hfun,
      sum_map_ite_mem pages (links i) hnd (hlinks i hi).1 (hlinks i hi).2]
    field_simp

lemma sum_map_swap {α β : Type _} (l : List α) (m : List β)
    (F : β → α → ℚ) :
    (l.map (fun p => (m.map (fun i => F i p)).sum)).sum =
      (m.map (fun i => (l.map (fun p => F i p)).sum)).sum := by
  induction l with
  | nil =>
      simp only [List.map_nil, List.sum_nil]
      rw [sum_map_const]
      ring
  | cons a t ih =>
      simp only [List.map_cons, List.sum_cons]
      rw [ih, ← sum_map_add]

lemma sum_prStep (pages : List ℕ) (links : Links) (d : ℚ)
    (hnd : pages.Nodup)
    (hlinks : ∀ p ∈ pages, (links p).Nodup ∧ ∀ q ∈ links p, q ∈ pages)
    (hne : pages ≠ []) (r : ℕ → ℚ) :
    (pages.map (prStep pages links d r)).sum =
      (1 - d) + d * (pages.map r).sum := by
  have hN : ((pages.length : ℚ)) ≠ 0 := by
    have : pages.length ≠ 0 := fun h => hne (List.length_eq_zero.mp h)
    exact_mod_cast this
  unfold prStep
  rw [sum_map_add, sum_map_const, sum_map_swap]
  have hrow : ∀ i ∈ pages, (pages.map (fun p =>
      if links i = [] then d * r i / (pages.length : ℚ)
      else if p ∈ links i then d * r i / ((links i).length : ℚ)
      else 0)).sum = d * r i :=
    fun i hi => row_sum pages links d hnd hlinks hne r i hi
  rw [List.map_congr_left hrow, sum_map_mul_left]
  field_simp

lemma sum_iterate (pages : List ℕ) (links : Links) (d : ℚ)
    (hnd : pages.Nodup)
    (hlinks : ∀ p ∈ pages, (links p).Nodup ∧ ∀ q ∈ links p, q ∈ pages)
    (hne : pages ≠ []) (n : ℕ) :
    (pages.map ((prStep pages links d)^[n]
      (fun _ => 1 / (pages.length : ℚ)))).sum = 1 := by
  have hN : ((pages.length : ℚ)) ≠ 0 := by
    have : pages.length ≠ 0 := fun h => hne (List.length_eq_zero.mp h)
    exact_mod_cast this
  induction n with
  | zero =>
      simp only [Function.iterate_zero, id]
      rw [sum_map_const]
      field_simp
  | succ n ih =>
      rw [Function.iterate_succ_apply', sum_prStep pages links d hnd hlinks hne,
        ih]
      ring

/-- C4 (amended): whenever `iterate_pagerank` returns, its output sums to
exactly `1` over the pages (so certainly within the claimed `1e-3`), and it
is the successor of an iterate from which every page moved by strictly less
than the threshold `0.001`; the claim's stronger property, that one *more*
step moves every page by at most `0.001`, is refuted separately. -/
theorem iterate_pagerank_returns_sum_one (pages : List ℕ) (links : Links)
    (d : ℚ) (fuel : ℕ) (v : ℕ → ℚ)
    (hnd : pages.Nodup)
    (hlinks : ∀ p ∈ pages, (links p).Nodup ∧ ∀ q ∈ links p, q ∈ pages)
    (hne : pages ≠ [])
    (h : iterate_pagerank pages links d fuel = some v) :
    (pages.map v).sum = 1 ∧ |(pages.map v).sum - 1| ≤ 1/1000 ∧
    ∃ k, v = (prStep pages links d)^[k+1] (fun _ => 1 / (pages.length : ℚ)) ∧
      ∀ p ∈ pages,
        |((prStep pages links d)^[k] (fun _ => 1 / (pages.length : ℚ))) p -
          v p| < 1/1000 := by
  unfold iterate_pagerank at h
  rcases prLoop_characterization pages links d fuel _ v h with
    ⟨k, _, hv, hconv, _⟩
  have hsum : (pages.map v).sum = 1 := by
    rw [hv]
    exact sum_iterate pages links d hnd hlinks hne (k + 1)
  refine ⟨hsum, by rw [hsum]; norm_num, k, hv, ?_⟩
  have := (converged_eq_true_iff pages _ _).mp hconv
  intro p hp
  rw [hv]
  exact this p hp

/-- C4 witness: the amended theorem applied to the one-page corpus, on
which the loop converges in one pass. -/
theorem iterate_pagerank_returns_sum_one_witness :
    (([0] : List ℕ).Nodup ∧
      (∀ p ∈ ([0] : List ℕ), ((fun _ => []) p : List ℕ).Nodup ∧
        ∀ q ∈ ((fun _ => []) p : List ℕ), q ∈ ([0] : List ℕ)) ∧
      ([0] : List ℕ) ≠ [] ∧
      iterate_pagerank [0] (fun _ => []) (17/20) 1 =
        some (prStep [0] (fun _ => []) (17/20) (fun _ => 1 / 1))) ∧
    (([0] : List ℕ).map (prStep [0] (fun _ => []) (17/20)
        (fun _ => 1 / 1))).sum = 1 ∧
    |(([0] : List ℕ).map (prStep [0] (fun _ => []) (17/20)
        (fun _ => 1 / 1))).sum - 1| ≤ 1/1000 ∧
    ∃ k, prStep [0] (fun _ => []) (17/20) (fun _ => 1 / 1) =
        (prStep [0] (fun _ => []) (17/20))^[k+1]
          (fun _ => 1 / (([0] : List ℕ).length : ℚ)) ∧
      ∀ p ∈ ([0] : List ℕ),
        |((prStep [0] (fun _ => []) (17/20))^[k]
            (fun _ => 1 / (([0] : List ℕ).length : ℚ))) p -
          prStep [0] (fun _ => []) (17/20) (fun _ => 1 / 1) p| < 1/1000 :=
  ⟨⟨by decide, by decide, by decide, by with_unfolding_all rfl⟩,
    iterate_pagerank_returns_sum_one [0] (fun _ => []) (17/20) 1
      (prStep [0] (fun _ => []) (17/20) (fun _ => 1 / 1))
      (by decide) (by decide) (by decide) (by with_unfolding_all rfl)⟩

lemma abs_list_sum_le {α : Type _} (l : List α) (f : α → ℚ) :
    |(l.map f).sum| ≤ (l.map (fun x => |f x|)).sum := by
  induction l with
  | nil => simp
  | cons a t ih =>
      simp only [List.map_cons, List.sum_cons]
      calc |f a + (t.map f).sum| ≤ |f a| + |(t.map f).sum| := abs_add _ _
        _ ≤ |f a| + (t.map (fun x => |f x|)).sum := by linarith

lemma sum_map_sub {α : Type _} (l : List α) (f g : α → ℚ) :
    (l.map f).sum - (l.map g).sum = (l.map (fun x => f x - g x)).sum := by
  induction l with
  | nil => simp
  | cons a t ih =>
      simp only [List.map_cons, List.sum_cons]
      rw [← ih]
      ring

/-- Total absolute change between two rank vectors over the corpus pages. -/
def sumAbsDiff (pages : List ℕ) (a b : ℕ → ℚ) : ℚ :=
  (pages.map (fun p => |a p - b p|)).sum

lemma prStep_abs_sub_le (pages : List ℕ) (links : Links) (d : ℚ)
    (hd0 : 0 ≤ d) (a b : ℕ → ℚ) (p : ℕ) :
    |prStep pages links d a p - prStep pages links d b p| ≤
      (pages.map (fun i =>
        if links i = [] then d * |a i - b i| / (pages.length : ℚ)
        else if p ∈ links i then d * |a i - b i| / ((links i).length : ℚ)
        else 0)).sum := by
  unfold prStep
  have hsimp : ((1 - d) / (pages.length : ℚ) +
        (pages.map (fun i =>
          if links i = [] then d * a i / (pages.length : ℚ)
          else if p ∈ links i then d * a i / ((links i).length : ℚ)
          else 0)).sum) -
      ((1 - d) / (pages.length : ℚ) +
        (pages.map (fun i =>
          if links i = [] then d * b i / (pages.length : ℚ)
          else if p ∈ links i then d * b i / ((links i).length : ℚ)
          else 0)).sum) =
      (pages.map (fun i =>
          if links i = [] then d * a i / (pages.length : ℚ)
          else if p ∈ links i then d * a i / ((links i).length : ℚ)
          else 0)).sum -
        (pages.map (fun i =>
          if links i = [] then d * b i / (pages.length : ℚ)
          else if p ∈ links i then d * b i / ((links i).length : ℚ)
          else 0)).sum := by ring
  rw [hsimp, sum_map_sub]
  refine le_trans (abs_list_sum_le pages _) (List.sum_le_sum ?_)
  intro i _
  by_cases h1 : links i = []
  · simp only [h1, if_true, eq_self_iff_true]
    have : d * a i / (pages.length : ℚ) - d * b i / (pages.length : ℚ) =
        d * (a i - b i) / (pages.length : ℚ) := by ring
    rw [this, abs_div, abs_mul, abs_of_nonneg hd0,
      abs_of_nonneg (show (0:ℚ) ≤ (pages.length : ℚ) from Nat.cast_nonneg _)]
  · by_cases h2 : p ∈ links i
    · simp only [h1, h2, if_false, if_true]
      have : d * a i / ((links i).length : ℚ) -
          d * b i / ((links i).length : ℚ) =
          d * (a i - b i) / ((links i).length : ℚ) := by ring
      rw [this, abs_div, abs_mul, abs_of_nonneg hd0,
        abs_of_nonneg
          (show (0:ℚ) ≤ ((links i).length : ℚ) from Nat.cast_nonneg _)]
    · simp [h1, h2]

lemma sumAbsDiff_step_le (pages : List ℕ) (links : Links) (d : ℚ)
    (hnd : pages.Nodup)
    (hlinks : ∀ p ∈ pages, (links p).Nodup ∧ ∀ q ∈ links p, q ∈ pages)
    (hne : pages ≠ []) (hd0 : 0 ≤ d) (a b : ℕ → ℚ) :
    sumAbsDiff pages (prStep pages links d a) (prStep pages links d b) ≤
      d * sumAbsDiff pages a b := by
  unfold sumAbsDiff
  calc (pages.map (fun p =>
        |prStep pages links d a p - prStep pages links d b p|)).sum
      ≤ (pages.map (fun p => (pages.map (fun i =>
          if links i = [] then d * |a i - b i| / (pages.length : ℚ)
          else if p ∈ links i then d * |a i - b i| / ((links i).length : ℚ)
          else 0)).sum)).sum :=
        List.sum_le_sum (fun p _ => prStep_abs_sub_le pages links d hd0 a b p)
    _ = (pages.map (fun i => (pages.map (fun p =>
          if links i = [] then d * |a i - b i| / (pages.length : ℚ)
          else if p ∈ links i then d * |a i - b i| / ((links i).length : ℚ)
          else 0)).sum)).sum := sum_map_swap pages pages _
    _ = (pages.map (fun i => d * |a i - b i|)).sum := by
        apply congrArg List.sum
        apply List.map_congr_left
        intro i hi
        exact row_sum pages links d hnd hlinks hne (fun i => |a i - b i|) i hi
    _ = d * (pages.map (fun i => |a i - b i|)).sum := sum_map_mul_left _ _ _

lemma sumAbsDiff_iterate_le (pages : List ℕ) (links : Links) (d : ℚ)
    (hnd : pages.Nodup)
    (hlinks : ∀ p ∈ pages, (links p).Nodup ∧ ∀ q ∈ links p, q ∈ pages)
    (hne : pages ≠ []) (hd0 : 0 ≤ d) (r : ℕ → ℚ) (n : ℕ) :
    sumAbsDiff pages ((prStep pages links d)^[n] r)
        ((prStep pages links d)^[n+1] r) ≤
      d ^ n * sumAbsDiff pages r (prStep pages links d r) := by
  induction n with
  | zero => simp
  | succ n ih =>
      rw [Function.iterate_succ_apply', Function.iterate_succ_apply']
      calc sumAbsDiff pages
            (prStep pages links d ((prStep pages links d)^[n] r))
            (prStep pages links d ((prStep pages links d)^[n+1] r)) ≤
          d * sumAbsDiff pages ((prStep pages links d)^[n] r)
            ((prStep pages links d)^[n+1] r) :=
            sumAbsDiff_step_le pages links d hnd hlinks hne hd0 _ _
        _ ≤ d * (d ^ n * sumAbsDiff pages r (prStep pages links d r)) :=
            mul_le_mul_of_nonneg_left ih hd0
        _ = d ^ (n + 1) * sumAbsDiff pages r (prStep pages links d r) := by
            ring

lemma prStep_nonneg (pages : List ℕ) (links : Links) (d : ℚ)
    (hd0 : 0 ≤ d) (hd1 : d ≤ 1) (r : ℕ → ℚ)
    (hr : ∀ i ∈ pages, 0 ≤ r i) (p : ℕ) :
    0 ≤ prStep pages links d r p := by
  unfold prStep
  have h1 : (0:ℚ) ≤ (1 - d) / (pages.length : ℚ) :=
    div_nonneg (by linarith) (Nat.cast_nonneg _)
  have h2 : (0:ℚ) ≤ (pages.map (fun i =>
      if links i = [] then d * r i / (pages.length : ℚ)
      else if p ∈ links i then d * r i / ((links i).length : ℚ)
      else 0)).sum := by
    apply List.sum_nonneg
    intro x hx
    rcases List.mem_map.mp hx with ⟨i, hi, rfl⟩
    by_cases hb1 : links i = []
    · simp only [hb1, if_true, eq_self_iff_true]
      exact div_nonneg (mul_nonneg hd0 (hr i hi)) (Nat.cast_nonneg _)
    · by_cases hb2 : p ∈ links i
      · simp only [hb1, hb2, if_false, if_true]
        exact div_nonneg (mul_nonneg hd0 (hr i hi)) (Nat.cast_nonneg _)
      · simp [hb1, hb2]
  linarith

lemma sumAbsDiff_init_le_two (pages : List ℕ) (links : Links) (d : ℚ)
    (hnd : pages.Nodup)
    (hlinks : ∀ p ∈ pages, (links p).Nodup ∧ ∀ q ∈ links p, q ∈ pages)
    (hne : pages ≠ []) (hd0 : 0 ≤ d) (hd1 : d ≤ 1) :
    sumAbsDiff pages (fun _ => 1 / (pages.length : ℚ))
      (prStep pages links d (fun _ => 1 / (pages.length : ℚ))) ≤ 2 := by
  have hN : ((pages.length : ℚ)) ≠ 0 := by
    have : pages.length ≠ 0 := fun h => hne (List.length_eq_zero.mp h)
    exact_mod_cast this
  have hinit_nonneg : ∀ i ∈ pages, (0:ℚ) ≤ 1 / (pages.length : ℚ) :=
    fun i _ => div_nonneg (by norm_num) (Nat.cast_nonneg _)
  have hstep_nonneg : ∀ p ∈ pages, (0:ℚ) ≤
      prStep pages links d (fun _ => 1 / (pages.length : ℚ)) p :=
    fun p _ => prStep_nonneg pages links d hd0 hd1 _ hinit_nonneg p
  unfold sumAbsDiff
  calc (pages.map (fun p => |1 / (pages.length : ℚ) -
        prStep pages links d (fun _ => 1 / (pages.length : ℚ)) p|)).sum
      ≤ (pages.map (fun p => 1 / (pages.length : ℚ) +
          prStep pages links d (fun _ => 1 / (pages.length : ℚ)) p)).sum := by
        apply List.sum_le_sum
        intro p hp
        calc |1 / (pages.length : ℚ) -
              prStep pages links d (fun _ => 1 / (pages.length : ℚ)) p| ≤
            |1 / (pages.length : ℚ)| +
              |prStep pages links d (fun _ => 1 / (pages.length : ℚ)) p| := by
              have := abs_add (1 / (pages.length : ℚ))
                (-(prStep pages links d (fun _ => 1 / (pages.length : ℚ)) p))
              simpa [sub_eq_add_neg] using this
          _ = 1 / (pages.length : ℚ) +
              prStep pages links d (fun _ => 1 / (pages.length : ℚ)) p := by
              rw [abs_of_nonneg (hinit_nonneg p hp),
                abs_of_nonneg (hstep_nonneg p hp)]
    _ = (pages.map (fun _ => 1 / (pages.length : ℚ))).sum +
        (pages.map (prStep pages links d
          (fun _ => 1 / (pages.length : ℚ)))).sum := sum_map_add _ _ _
    _ = 1 + ((1 - d) + d * (pages.map
        (fun _ => 1 / (pages.length : ℚ))).sum) := by
        rw [sum_prStep pages links d hnd hlinks hne, sum_map_const]
        field_simp
    _ ≤ 2 := by
        rw [sum_map_const]
        have : ((pages.length : ℚ)) * (1 / (pages.length : ℚ)) = 1 := by
          field_simp
        rw [this]
        linarith

lemma prLoop_none_not_converged (pages : List ℕ) (links : Links) (d : ℚ) :
    ∀ (fuel : ℕ) (r : ℕ → ℚ), prLoop pages links d fuel r = none →
      ∀ j < fuel, converged pages ((prStep pages links d)^[j] r)
        ((prStep pages links d)^[j+1] r) = false := by
  intro fuel
  induction fuel with
  | zero =>
      intro r _ j hj
      omega
  | succ n ih =>
      intro r h j hj
      unfold prLoop at h
      by_cases hc : converged pages r (prStep pages links d r) = true
      · rw [if_pos hc] at h
        exact Option.noConfusion h
      · rw [if_neg hc] at h
        match j with
        | 0 => simpa using Bool.eq_false_iff.mpr hc
        | j' + 1 =>
            have hp := ih (prStep pages links d r) h j' (by omega)
            simp only [← Function.iterate_succ_apply] at hp
            exact hp

lemma iterate_pagerank_terminates (pages : List ℕ) (links : Links) (d : ℚ)
    (hnd : pages.Nodup)
    (hlinks : ∀ p ∈ pages, (links p).Nodup ∧ ∀ q ∈ links p, q ∈ pages)
    (hne : pages ≠ []) (hd0 : 0 ≤ d) (hd1 : d < 1) :
    ∃ fuel v, iterate_pagerank pages links d fuel = some v := by
  obtain ⟨n, hn⟩ :=
    exists_pow_lt_of_lt_one (show (0:ℚ) < 1/2000 by norm_num) hd1
  have hS : sumAbsDiff pages
      ((prStep pages links d)^[n] (fun _ => 1 / (pages.length : ℚ)))
      ((prStep pages links d)^[n+1] (fun _ => 1 / (pages.length : ℚ))) ≤
      d ^ n * 2 := by
    calc sumAbsDiff pages _ _ ≤
        d ^ n * sumAbsDiff pages (fun _ => 1 / (pages.length : ℚ))
          (prStep pages links d (fun _ => 1 / (pages.length : ℚ))) :=
          sumAbsDiff_iterate_le pages links d hnd hlinks hne hd0 _ n
      _ ≤ d ^ n * 2 :=
          mul_le_mul_of_nonneg_left
            (sumAbsDiff_init_le_two pages links d hnd hlinks hne hd0
              (le_of_lt hd1))
            (pow_nonneg hd0 n)
  have hconv : converged pages
      ((prStep pages links d)^[n] (fun _ => 1 / (pages.length : ℚ)))
      ((prStep pages links d)^[n+1] (fun _ => 1 / (pages.length : ℚ))) =
      true := by
    rw [converged_eq_true_iff]
    intro p hp
    have h1 : |((prStep pages links d)^[n]
          (fun _ => 1 / (pages.length : ℚ))) p -
        ((prStep pages links d)^[n+1]
          (fun _ => 1 / (pages.length : ℚ))) p| ≤
        sumAbsDiff pages
          ((prStep pages links d)^[n] (fun _ => 1 / (pages.length : ℚ)))
          ((prStep pages links d)^[n+1]
            (fun _ => 1 / (pages.length : ℚ))) := by
      unfold sumAbsDiff
      apply List.single_le_sum (fun x hx => ?_) _ (List.mem_map_of_mem _ hp)
      rcases List.mem_map.mp hx with ⟨q, _, rfl⟩
      exact abs_nonneg _
    have h2 : d ^ n * 2 < 1/1000 := by
      have := hn
      linarith
    linarith
  rcases hloop : prLoop pages links d (n+1)
      (fun _ => 1 / (pages.length : ℚ)) with _ | v
  · exfalso
    have := prLoop_none_not_converged pages links d (n+1)
      (fun _ => 1 / (pages.length : ℚ)) hloop n (by omega)
    rw [this] at hconv
    exact Bool.noConfusion hconv
  · exact ⟨n+1, v, hloop⟩

/-- C2: for every corpus with at least one page (duplicate-free keys, link
sets duplicate-free subsets of the pages) and every damping factor in
`[0, 1)`, `iterate_pagerank` starts from the uniform vector `1/N`, and
whatever it returns is the first iterate of the claim's recurrence
`new_rank[p] = (1-d)/N + d*Σ_i contribution(i,p)` whose absolute change
from its predecessor is strictly below `0.001` on every page; moreover the
loop does stop: for sufficient fuel it returns a vector. -/
theorem iterate_pagerank_first_converged (pages : List ℕ) (links : Links)
    (d : ℚ) (hnd : pages.Nodup)
    (hlinks : ∀ p ∈ pages, (links p).Nodup ∧ ∀ q ∈ links p, q ∈ pages)
    (hne : pages ≠ []) (hd0 : 0 ≤ d) (hd1 : d < 1) :
    (∀ (fuel : ℕ) (v : ℕ → ℚ),
      iterate_pagerank pages links d fuel = some v →
      ∃ k, v = (specStep pages links d)^[k+1]
            (fun _ => 1 / (pages.length : ℚ)) ∧
        convergedSpec pages
          ((specStep pages links d)^[k] (fun _ => 1 / (pages.length : ℚ)))
          ((specStep pages links d)^[k+1]
            (fun _ => 1 / (pages.length : ℚ))) ∧
        ∀ j < k, ¬ convergedSpec pages
          ((specStep pages links d)^[j] (fun _ => 1 / (pages.length : ℚ)))
          ((specStep pages links d)^[j+1]
            (fun _ => 1 / (pages.length : ℚ)))) ∧
    (∃ fuel v, iterate_pagerank pages links d fuel = some v) := by
  have hspec := prStep_eq_specStep pages links d
  constructor
  · intro fuel v h
    unfold iterate_pagerank at h
    rcases prLoop_characterization pages links d fuel _ v h with
      ⟨k, _, hv, hconv, hprev⟩
    rw [hspec] at hv hconv hprev
    refine ⟨k, hv, ?_, ?_⟩
    · exact (converged_eq_true_iff pages _ _).mp hconv
    · intro j hj hcs
      have htrue := (converged_eq_true_iff pages _ _).mpr hcs
      have hfalse := hprev j hj
      rw [htrue] at hfalse
      exact Bool.noConfusion hfalse
  · exact iterate_pagerank_terminates pages links d hnd hlinks hne hd0 hd1

/-- C2 witness: the theorem applied to the one-page corpus at damping
`0.85`. -/
theorem iterate_pagerank_first_converged_witness :
    (([0] : List ℕ).Nodup ∧
      (∀ p ∈ ([0] : List ℕ), (([] : List ℕ)).Nodup ∧
        ∀ q ∈ ([] : List ℕ), q ∈ ([0] : List ℕ)) ∧
      ([0] : List ℕ) ≠ [] ∧ (0:ℚ) ≤ 17/20 ∧ (17/20:ℚ) < 1) ∧
    (∀ (fuel : ℕ) (v : ℕ → ℚ),
      iterate_pagerank [0] (fun _ => []) (17/20) fuel = some v →
      ∃ k, v = (specStep [0] (fun _ => []) (17/20))^[k+1]
            (fun _ => 1 / (([0] : List ℕ).length : ℚ)) ∧
        convergedSpec [0]
          ((specStep [0] (fun _ => []) (17/20))^[k]
            (fun _ => 1 / (([0] : List ℕ).length : ℚ)))
          ((specStep [0] (fun _ => []) (17/20))^[k+1]
            (fun _ => 1 / (([0] : List ℕ).length : ℚ))) ∧
        ∀ j < k, ¬ convergedSpec [0]
          ((specStep [0] (fun _ => []) (17/20))^[j]
            (fun _ => 1 / (([0] : List ℕ).length : ℚ)))
          ((specStep [0] (fun _ => []) (17/20))^[j+1]
            (fun _ => 1 / (([0] : List ℕ).length : ℚ)))) ∧
    (∃ fuel v, iterate_pagerank [0] (fun _ => []) (17/20) fuel = some v) :=
  ⟨⟨by decide, by decide, by decide,
      of_decide_eq_true (by with_unfolding_all rfl),
      of_decide_eq_true (by with_unfolding_all rfl)⟩,
    iterate_pagerank_first_converged [0] (fun _ => []) (17/20)
      (by decide) (by decide) (by decide)
      (of_decide_eq_true (by with_unfolding_all rfl))
      (of_decide_eq_true (by with_unfolding_all rfl))⟩

/-- The five-page corpus on which the fixed-point reading of convergence
fails. -/
def cexPages : List ℕ := [0, 1, 2, 3, 4]

/-- Link sets of the five-page counterexample corpus. -/
def cexLinks : Links
  | 0 => [1, 2, 3]
  | 1 => [3, 4]
  | 2 => [1, 3, 4]
  | 3 => [0]
  | 4 => [0, 1]
  | _ => []

set_option maxRecDepth 100000 in
set_option maxHeartbeats 2000000 in
/-- C4 counterexample: on the five-page corpus at damping `0.85`, the loop
returns (after five passes) a vector from which one further iteration step
moves page `0` by more than the convergence threshold `0.001`: the returned
vector is not a fixed point within the threshold. -/
theorem iterate_pagerank_not_fixed_point :
    ∃ v, iterate_pagerank cexPages cexLinks (17/20) 6 = some v ∧
      ∃ p ∈ cexPages,
        1/1000 < |v p - prStep cexPages cexLinks (17/20) v p| := by
  refine ⟨prStep cexPages cexLinks (17/20)
      (prStep cexPages cexLinks (17/20)
        (prStep cexPages cexLinks (17/20)
          (prStep cexPages cexLinks (17/20)
            (prStep cexPages cexLinks (17/20)
              (fun _ => 1 / ((cexPages.length : ℚ))))))), ?_, 0, by decide,
    ?_⟩
  · with_unfolding_all rfl
  · exact of_decide_eq_true (by with_unfolding_all rfl)

/-- `sample_pagerank(corpus, damping_factor, n)`, with the randomness made
explicit: `samples` is the realized sequence of the `n` pages the walk
visited (the initial `random.choice` plus the `n-1` draws from
`random.choices`).  The returned dict maps each page that was visited at
least once to its visit count divided by `n = len(samples)`; pages never
visited get no key. -/
def sample_pagerank (samples : List ℕ) : List (ℕ × ℚ) :=
  samples.dedup.map (fun page =>
    (page, (samples.count page : ℚ) / (samples.length : ℚ)))

lemma sum_map_div {α : Type _} (l : List α) (f : α → ℚ) (c : ℚ) :
    (l.map (fun x => f x / c)).sum = (l.map f).sum / c := by
  induction l with
  | nil => simp
  | cons a t ih =>
      simp only [List.map_cons, List.sum_cons, ih]
      rw [div_add_div_same]

lemma sum_map_natCast {α : Type _} (l : List α) (g : α → ℕ) :
    (l.map (fun x => ((g x : ℕ) : ℚ))).sum = (((l.map g).sum : ℕ) : ℚ) := by
  induction l with
  | nil => simp
  | cons a t ih =>
      simp only [List.map_cons, List.sum_cons, ih]
      push_cast
      ring

/-- C5 (amended): for every corpus and every realized outcome of at least
one sample, each drawn inside the corpus, `sample_pagerank` returns a
mapping whose keys are visited corpus pages, each carrying its
visit-frequency divided by `n`, with every value in `(0, 1]` and the values
summing to exactly `1`; every visited page gets a key (but unvisited corpus
pages get none, which is refuted separately for the claim as stated). -/
theorem sample_pagerank_props (pages samples : List ℕ)
    (hne : samples ≠ []) (hmem : ∀ s ∈ samples, s ∈ pages) :
    (∀ pr ∈ sample_pagerank samples, pr.1 ∈ pages ∧
        pr.2 = (samples.count pr.1 : ℚ) / (samples.length : ℚ) ∧
        0 < pr.2 ∧ pr.2 ≤ 1) ∧
    ((sample_pagerank samples).map Prod.snd).sum = 1 ∧
    (∀ p ∈ samples, ∃ q, (p, q) ∈ sample_pagerank samples) := by
  have hlen : samples.length ≠ 0 :=
    fun h => hne (List.length_eq_zero.mp h)
  have hn : (0:ℚ) < (samples.length : ℚ) := by
    exact_mod_cast Nat.pos_of_ne_zero hlen
  refine ⟨?_, ?_, ?_⟩
  · intro pr hpr
    unfold sample_pagerank at hpr
    rcases List.mem_map.mp hpr with ⟨page, hpage, rfl⟩
    have hps : page ∈ samples := List.mem_dedup.mp hpage
    have hcount : 0 < samples.count page := List.count_pos_iff.mpr hps
    have hcq : (0:ℚ) < (samples.count page : ℚ) := by exact_mod_cast hcount
    have hcle : samples.count page ≤ samples.length :=
      List.count_le_length page samples
    have hcleq : ((samples.count page : ℕ) : ℚ) ≤ (samples.length : ℚ) := by
      exact_mod_cast hcle
    refine ⟨hmem page hps, rfl, div_pos hcq hn, ?_⟩
    rw [div_le_one hn]
    exact hcleq
  · unfold sample_pagerank
    rw [List.map_map]
    have hcomp : ∀ page ∈ samples.dedup,
        (Prod.snd ∘ fun page =>
          (page, (samples.count page : ℚ) / (samples.length : ℚ))) page =
        ((samples.count page : ℚ) / (samples.length : ℚ)) :=
      fun page _ => rfl
    rw [List.map_congr_left hcomp, sum_map_div, sum_map_natCast,
      List.sum_map_count_dedup_eq_length]
    exact div_self (ne_of_gt hn)
  · intro p hp
    refine ⟨(samples.count p : ℚ) / (samples.length : ℚ), ?_⟩
    unfold sample_pagerank
    exact List.mem_map_of_mem _ (List.mem_dedup.mpr hp)

/-- C5 witness: the amended theorem applied to the outcome `[0, 0, 1]` on
the two-page corpus. -/
theorem sample_pagerank_props_witness :
    (([0, 0, 1] : List ℕ) ≠ [] ∧
      (∀ s ∈ ([0, 0, 1] : List ℕ), s ∈ examplePages)) ∧
    (∀ pr ∈ sample_pagerank [0, 0, 1], pr.1 ∈ examplePages ∧
        pr.2 = (([0, 0, 1] : List ℕ).count pr.1 : ℚ) /
          ((([0, 0, 1] : List ℕ)).length : ℚ) ∧
        0 < pr.2 ∧ pr.2 ≤ 1) ∧
    ((sample_pagerank [0, 0, 1]).map Prod.snd).sum = 1 ∧
    (∀ p ∈ ([0, 0, 1] : List ℕ), ∃ q, (p, q) ∈ sample_pagerank [0, 0, 1]) :=
  ⟨⟨by decide, by decide⟩,
    sample_pagerank_props examplePages [0, 0, 1] (by decide) (by decide)⟩

/-- C5 counterexample: on the two-page corpus, the one-step outcome that
visits only page `0` is a valid random outcome, yet the returned mapping
carries no key at all for corpus page `1`: `sample_pagerank` does not give
every page of the corpus a value. -/
theorem sample_pagerank_missing_page :
    ((1 : ℕ) ∈ examplePages ∧ ([0] : List ℕ) ≠ [] ∧
      (∀ s ∈ ([0] : List ℕ), s ∈ examplePages)) ∧
    sample_pagerank [0] = [(0, 1)] ∧
    (∀ q : ℚ, ((1 : ℕ), q) ∉ sample_pagerank [0]) := by
  refine ⟨by decide, by with_unfolding_all rfl, ?_⟩
  intro q hq
  rw [show sample_pagerank [0] = [(0, 1)] from by with_unfolding_all rfl]
    at hq
  simp at hq

end PageRank
